import Mathlib

/-!
# Verification of the Stars coin-flip bot core (`bot.py`)

A shallow embedding of the provably-fair settlement engine of `bot.py`:
the commitment scheme (`make_commit`), the outcome deriver (`rng_roll`),
the payout rule (`payout_for`), the balance ledger (`add_balance` /
`get_balance`), the bet settlement path (`place_bet`), and the
deposit-reversal withdrawal path (`withdraw_cmd`).

Modelling conventions:

* Bytes are `ℕ` below 256; byte strings are `List ℕ`.
* The Python standard-library primitives the source calls
  (`hashlib.sha256`, `hmac.new(..., hashlib.sha256)`, `str.encode`)
  are implemented here from their specifications (FIPS 180-4, FIPS 198-1,
  UTF-8), executably, so concrete rounds can be recomputed inside proofs.
* Python `float` values are modelled exactly as rationals: the binary64
  value of `n / 2**64` is `(roundEven64 n : ℚ) / 2^64`, where
  `roundEven64` performs IEEE-754 round-to-nearest, ties-to-even on the
  53-bit significand grid, and the float literals `0.495` and `0.010` are
  replaced by their exact binary64 values.
* Python `round` is round-half-to-even, modelled by `pyRound`.
* The SQLite tables are modelled as in-memory state: the `users` table as
  a total function `ℕ → ℤ` (a missing row reads as balance 0, which is
  exactly what `get_balance` materialises), and the `bets`, `deposits`
  and `withdrawals` tables as lists in insertion order (`ORDER BY ts ASC`
  on `deposits` is the insertion order).
* `secrets.token_hex` and the Telegram transport are nondeterministic
  inputs; they appear as explicit parameters (seeds, amounts, and the
  success/failure of each external `refund_star_payment` call).
-/

namespace StarsBot

/-! ## UTF-8 encoding (Python `str.encode()`) -/

/-- UTF-8 encoding of a single code point (the seeds and messages the bot
hashes are ASCII, but the encoder is the full one). -/
def utf8Char (c : Char) : List ℕ :=
  let n := c.toNat
  if n < 128 then [n]
  else if n < 2048 then [192 + n / 64, 128 + n % 64]
  else if n < 65536 then [224 + n / 4096, 128 + (n / 64) % 64, 128 + n % 64]
  else [240 + n / 262144, 128 + (n / 4096) % 64, 128 + (n / 64) % 64, 128 + n % 64]

/-- `s.encode()`: the UTF-8 bytes of a string. -/
def utf8 (s : String) : List ℕ :=
  (s.data.map utf8Char).flatten

/-! ## SHA-256 (FIPS 180-4), over byte lists, 32-bit words as `ℕ` mod `2^32` -/

/-- Right-rotation of a 32-bit word (argument below `2^32`). -/
def rotr32 (n x : ℕ) : ℕ :=
  x / 2 ^ n + x % 2 ^ n * 2 ^ (32 - n)

/-- `Ch(x,y,z) = (x ∧ y) xor (complement x ∧ z)`; `x` is below `2^32`. -/
def ch32 (x y z : ℕ) : ℕ :=
  Nat.xor (Nat.land x y) (Nat.land (4294967295 - x) z)

/-- `Maj(x,y,z)`. -/
def maj32 (x y z : ℕ) : ℕ :=
  Nat.xor (Nat.xor (Nat.land x y) (Nat.land x z)) (Nat.land y z)

/-- `Σ₀`. -/
def bsig0 (x : ℕ) : ℕ := Nat.xor (Nat.xor (rotr32 2 x) (rotr32 13 x)) (rotr32 22 x)

/-- `Σ₁`. -/
def bsig1 (x : ℕ) : ℕ := Nat.xor (Nat.xor (rotr32 6 x) (rotr32 11 x)) (rotr32 25 x)

/-- `σ₀`. -/
def ssig0 (x : ℕ) : ℕ := Nat.xor (Nat.xor (rotr32 7 x) (rotr32 18 x)) (x / 2 ^ 3)

/-- `σ₁`. -/
def ssig1 (x : ℕ) : ℕ := Nat.xor (Nat.xor (rotr32 17 x) (rotr32 19 x)) (x / 2 ^ 10)

/-- The 64 SHA-256 round constants. -/
def K256 : List ℕ :=
  [1116352408, 1899447441, 3049323471, 3921009573, 961987163,
   1508970993, 2453635748, 2870763221, 3624381080, 310598401,
   607225278, 1426881987, 1925078388, 2162078206, 2614888103,
   3248222580, 3835390401, 4022224774, 264347078, 604807628,
   770255983, 1249150122, 1555081692, 1996064986, 2554220882,
   2821834349, 2952996808, 3210313671, 3336571891, 3584528711,
   113926993, 338241895, 666307205, 773529912, 1294757372,
   1396182291, 1695183700, 1986661051, 2177026350, 2456956037,
   2730485921, 2820302411, 3259730800, 3345764771, 3516065817,
   3600352804, 4094571909, 275423344, 430227734, 506948616,
   659060556, 883997877, 958139571, 1322822218, 1537002063,
   1747873779, 1955562222, 2024104815, 2227730452, 2361852424,
   2428436474, 2756734187, 3204031479, 3329325298]

/-- The SHA-256 initial hash value. -/
def H256 : List ℕ :=
  [1779033703, 3144134277, 1013904242, 2773480762,
   1359893119, 2600822924, 528734635, 1541459225]

/-- `k` big-endian bytes of `n`. -/
def bytesBE : ℕ → ℕ → List ℕ
  | 0, _ => []
  | k + 1, n => bytesBE k (n / 256) ++ [n % 256]

/-- FIPS 180-4 §5.1.1 padding: append `0x80`, zeros to 56 mod 64, then the
bit length as 8 big-endian bytes. -/
def sha256pad (msg : List ℕ) : List ℕ :=
  msg ++ [128] ++ List.replicate ((119 - msg.length % 64) % 64) 0 ++ bytesBE 8 (8 * msg.length)

/-- Group a byte list into big-endian 32-bit words. -/
def toWords : List ℕ → List ℕ
  | a :: b :: c :: d :: rest => (a * 16777216 + b * 65536 + c * 256 + d) :: toWords rest
  | _ => []

/-- Split into 64-byte blocks (the padded message length is a multiple of
64, so the accumulator never leaves a short trailing block). -/
def blocks256 : List ℕ → List ℕ → List (List ℕ)
  | [], acc => if acc.isEmpty then [] else [acc.reverse]
  | x :: xs, acc =>
      let acc2 := x :: acc
      if acc2.length = 64 then acc2.reverse :: blocks256 xs [] else blocks256 xs acc2

/-- Extend a 16-word block to the 64-word message schedule, one word per
step (`w` already holds `t` words). -/
def schedStep (w : List ℕ) : List ℕ :=
  let t := w.length
  w ++ [(ssig1 (w.getD (t - 2) 0) + w.getD (t - 7) 0 + ssig0 (w.getD (t - 15) 0)
        + w.getD (t - 16) 0) % 4294967296]

/-- The full 64-word message schedule of one block. -/
def schedule (block : List ℕ) : List ℕ :=
  schedStep^[48] (toWords block)

/-- One compression round on the state `[a,b,c,d,e,f,g,h]`. -/
def round256 (st : List ℕ) (kw : ℕ × ℕ) : List ℕ :=
  match st with
  | [a, b, c, d, e, f, g, h] =>
      let t1 := (h + bsig1 e + ch32 e f g + kw.1 + kw.2) % 4294967296
      let t2 := (bsig0 a + maj32 a b c) % 4294967296
      [(t1 + t2) % 4294967296, a, b, c, (d + t1) % 4294967296, e, f, g]
  | other => other

/-- Compress one 64-byte block into the chaining state. -/
def compress256 (h block : List ℕ) : List ℕ :=
  let w := schedule block
  let final := (K256.zip w).foldl round256 h
  List.zipWith (fun x y => (x + y) % 4294967296) h final

/-- A 32-bit word as 4 big-endian bytes. -/
def wordBytes (w : ℕ) : List ℕ :=
  [w / 16777216 % 256, w / 65536 % 256, w / 256 % 256, w % 256]

/-- SHA-256 of a byte list, as the 32-byte digest. -/
def sha256 (msg : List ℕ) : List ℕ :=
  (((blocks256 (sha256pad msg) []).foldl compress256 H256).map wordBytes).flatten

/-- Lower-case hex digit. -/
def hexChar (n : ℕ) : Char :=
  "0123456789abcdef".toList.getD n '0'

/-- `.hexdigest()`: the digest as a lower-case hex string. -/
def hexDigest (bs : List ℕ) : String :=
  String.mk ((bs.map (fun b => [hexChar (b / 16), hexChar (b % 16)])).flatten)

/-! ## HMAC-SHA256 (FIPS 198-1), as `hmac.new(key, msg, hashlib.sha256)` -/

/-- HMAC-SHA256 digest of `msg` under `key`. -/
def hmacSha256 (key msg : List ℕ) : List ℕ :=
  let k0 := if 64 < key.length then sha256 key else key
  let kp := k0 ++ List.replicate (64 - k0.length) 0
  sha256 ((kp.map (fun b => Nat.xor b 92)) ++ sha256 ((kp.map (fun b => Nat.xor b 54)) ++ msg))

/-! ## Exact model of the binary64 arithmetic in `rng_roll`

`x = n / 2**64` in Python produces the binary64 double nearest to the
exact ratio (ties to even).  For `n < 2^53` the ratio is exactly
representable; for `2^k ≤ n < 2^(k+1)` with `53 ≤ k ≤ 63` the unit in
the last place of `x` is `2^(k-52)/2^64`, so the double equals the
multiple of `2^(k-52)` nearest to `n` (ties to the even multiple),
divided by `2^64`. -/

/-- Fuelled base-2 logarithm; `lgAux fuel n` is the position of the top
bit of `n` whenever `n < 2^fuel`. -/
def lgAux : ℕ → ℕ → ℕ
  | 0, _ => 0
  | fuel + 1, n => if n < 2 then 0 else lgAux fuel (n / 2) + 1

/-- Base-2 logarithm for the 64-bit range of `rng_roll`. -/
def lg2 (n : ℕ) : ℕ := lgAux 64 n

/-- Round `n` to the nearest multiple of `d`, ties to the even multiple. -/
def roundHE (d n : ℕ) : ℕ :=
  let q := n / d
  let r := n % d
  if 2 * r < d then d * q
  else if d < 2 * r then d * (q + 1)
  else if q % 2 = 0 then d * q else d * (q + 1)

/-- `n` rounded onto the binary64 significand grid of `n / 2^64`
(for `n < 2^64`): the numerator of the exact value of the Python float
`n / 2**64` over the denominator `2^64`. -/
def roundEven64 (n : ℕ) : ℕ :=
  if n < 9007199254740992 then n else roundHE (2 ^ (lg2 n - 52)) n

/-- The Python float `n / 2**64`, as an exact rational. -/
def floatDiv64 (n : ℕ) : ℚ := (roundEven64 n : ℚ) / 2 ^ 64

/-- `P_HEADS = 0.495`: the exact binary64 value of the source literal. -/
def P_HEADS : ℚ := 4458563631096791 / 2 ^ 53

/-- `P_EDGE = 0.010`: the exact binary64 value of the source literal. -/
def P_EDGE : ℚ := 5764607523034235 / 2 ^ 59

/-! The comparison `x < P_HEADS + P_EDGE` in the source adds two doubles,
yielding the binary64 sum `4548635623644201 / 2^53`; the exact rational
sum used below is `291112679913228859 / 2^59`, smaller by `5 / 2^59`.
No value of `floatDiv64` lies in between (the grid spacing at `0.505`
is `64 / 2^59`, and the next multiple of `2048 / 2^64` below the
binary64 sum is also below the exact sum), so the comparison against
the exact sum decides identically to the float comparison on every
reachable `x`; `x_lt_sum_iff` below fixes the common integer
threshold. -/

/-- Natural-number value of big-endian bytes (`int.from_bytes(·,"big")`). -/
def beNat (bs : List ℕ) : ℕ := bs.foldl (fun acc b => acc * 256 + b) 0

/-- `int.from_bytes(digest[:8], "big")` for the round's HMAC digest:
the 64-bit integer `n` that seeds the outcome. -/
def hmacFirst8 (server_seed client_seed : String) (nonce : ℕ) : ℕ :=
  beNat ((hmacSha256 (utf8 server_seed) (utf8 (client_seed ++ ":" ++ toString nonce))).take 8)

/-- The outcome and `x` as a function of the 64-bit integer `n`
(lines 122-127 of `bot.py`). -/
def rngOfN (n : ℕ) : String × ℚ :=
  if floatDiv64 n < P_HEADS then ("heads", floatDiv64 n)
  else if floatDiv64 n < P_HEADS + P_EDGE then ("edge", floatDiv64 n)
  else ("tails", floatDiv64 n)

/-- `rng_roll(server_seed, client_seed, nonce)` (lines 112-127). -/
def rng_roll (server_seed client_seed : String) (nonce : ℕ) : String × ℚ :=
  rngOfN (hmacFirst8 server_seed client_seed nonce)

/-- `make_commit(server_seed)` (lines 109-110). -/
def make_commit (server_seed : String) : String :=
  hexDigest (sha256 (utf8 server_seed))

/-! ## Payout rule -/

/-- Python 3 `round` on an exact rational: round to the nearest integer,
ties to the even integer. -/
def pyRound (q : ℚ) : ℤ :=
  if q - ⌊q⌋ < 1 / 2 then ⌊q⌋
  else if 1 / 2 < q - ⌊q⌋ then ⌊q⌋ + 1
  else if 2 ∣ ⌊q⌋ then ⌊q⌋ else ⌊q⌋ + 1

/-- `MULT_SIDE = 1.75` (exactly representable in binary64). -/
def MULT_SIDE : ℚ := 7 / 4

/-- `MULT_EDGE = 8.0`. -/
def MULT_EDGE : ℚ := 8

/-- `payout_for(outcome, chosen, stake)` (lines 129-134).  For every
stake the bot accepts (`stake ≤ MAX_BET = 5000`, and indeed for every
`|stake| ≤ 2^51`) the float products `stake * 1.75` and `stake * 8.0`
are exact, so rounding the exact rational product models
`int(round(...))` exactly. -/
def payout_for (outcome chosen : String) (stake : ℤ) : ℤ :=
  if outcome = "edge" then pyRound ((stake : ℚ) * MULT_EDGE)
  else if outcome = chosen then pyRound ((stake : ℚ) * MULT_SIDE)
  else 0

/-- `MIN_BET`. -/
def MIN_BET : ℕ := 100

/-- `MAX_BET`. -/
def MAX_BET : ℕ := 5000

/-- `ADMIN_ID`. -/
def ADMIN_ID : ℕ := 123456789

/-- Modelled from the spec (§4.2), for comparison with `rng_roll`: the
outcome deriver as the spec words it, with `x = n / 2^64` exactly and
the exact left-closed interval boundaries `0.495` and `0.505`. -/
def deriveSpec (server_seed client_seed : String) (nonce : ℕ) : String × ℚ :=
  if (hmacFirst8 server_seed client_seed nonce : ℚ) / 2 ^ 64 < 495 / 1000 then
    ("heads", (hmacFirst8 server_seed client_seed nonce : ℚ) / 2 ^ 64)
  else if (hmacFirst8 server_seed client_seed nonce : ℚ) / 2 ^ 64 < 505 / 1000 then
    ("edge", (hmacFirst8 server_seed client_seed nonce : ℚ) / 2 ^ 64)
  else ("tails", (hmacFirst8 server_seed client_seed nonce : ℚ) / 2 ^ 64)

/-! ## State: the SQLite tables and the in-memory side choice -/

/-- A row of the `bets` table (the Round audit record). -/
structure RoundRow where
  user_id : ℕ
  side : String
  stake : ℕ
  server_seed : String
  client_seed : String
  nonce : ℕ
  commit_hash : String
  outcome : String
  payout : ℤ
  deriving DecidableEq, Repr

/-- A row of the `deposits` table. -/
structure DepositRow where
  user_id : ℕ
  charge_id : String
  amount : ℕ
  refunded : ℕ
  deriving DecidableEq, Repr

/-- A row of the `withdrawals` table. -/
structure WithdrawalRow where
  user_id : ℕ
  amount : ℕ
  auto_refunded : ℕ
  status : String
  deriving DecidableEq, Repr

/-- The bot's persistent state: the four tables plus `pending_choice`.
Balances are a total function (`get_balance` materialises missing rows
as 0, so absent and zero rows are indistinguishable); the lists are in
insertion order. -/
structure State where
  balances : ℕ → ℤ
  bets : List RoundRow
  deposits : List DepositRow
  withdrawals : List WithdrawalRow
  pending : ℕ → Option String

/-- The freshly initialised database (`db_init`). -/
def initState : State :=
  ⟨fun _ => 0, [], [], [], fun _ => none⟩

/-- `get_balance(uid)` (lines 86-94). -/
def get_balance (st : State) (uid : ℕ) : ℤ := st.balances uid

/-- `add_balance(uid, delta)` (lines 97-104). -/
def add_balance (st : State) (uid : ℕ) (delta : ℤ) : State :=
  { st with balances := fun u => if u = uid then st.balances u + delta else st.balances u }

/-- The `side:` callback (`choose_side`, lines 165-176): records the
chosen side in `pending_choice`. -/
def choose_side (st : State) (uid : ℕ) (side : String) : State :=
  { st with pending := fun u => if u = uid then some side else st.pending u }

/-- `place_bet` (lines 179-231).  The freshly generated
`secrets.token_hex` seeds enter as parameters.  Guard order follows the
source: stake bounds, then the pending side, then the balance. -/
def place_bet (st : State) (uid stake : ℕ) (server_seed client_seed : String) : State :=
  if ¬ (MIN_BET ≤ stake ∧ stake ≤ MAX_BET) then st
  else
    match st.pending uid with
    | none => st
    | some side =>
      if ¬ (side = "heads" ∨ side = "tails" ∨ side = "edge") then st
      else if get_balance st uid < (stake : ℤ) then st
      else
        let nonce := 1
        let commit := make_commit server_seed
        let st1 := add_balance st uid (-(stake : ℤ))
        let outcome := (rng_roll server_seed client_seed nonce).1
        let prize := payout_for outcome side (stake : ℤ)
        let st2 := if prize ≠ 0 then add_balance st1 uid prize else st1
        { st2 with bets := st2.bets ++
            [⟨uid, side, stake, server_seed, client_seed, nonce, commit, outcome, prize⟩] }

/-- `on_successful_payment` (lines 255-276): credit the amount, and log
a deposit row when Telegram supplied a charge id. -/
def on_successful_payment (st : State) (uid amount : ℕ) (charge_id : Option String) : State :=
  let st1 := add_balance st uid (amount : ℤ)
  match charge_id with
  | some cid => { st1 with deposits := st1.deposits ++ [⟨uid, cid, amount, 0⟩] }
  | none => st1

/-- The refund loop of `withdraw_cmd` (lines 317-351), walking the
deposit rows in insertion order.  `oracle k` gives the outcome of the
external `refund_star_payment` calls for the `k`-th row of this user
reached by the loop: `.1` is the partial-refund attempt, `.2` the
full-refund fallback.  Returns the updated table (each row's `UPDATE`
has already committed), the amount auto-refunded, and whether the loop
was aborted by an exception escaping the `except` block — which happens
exactly when the unprotected fallback call fails; rows after that point
are never visited. -/
def withdrawWalk (oracle : ℕ → Bool × Bool) (idx : ℕ) (uid : ℕ) :
    List DepositRow → ℕ → List DepositRow × ℕ × Bool
  | [], _ => ([], 0, false)
  | d :: rest, toRefund =>
    if d.user_id ≠ uid then
      let res := withdrawWalk oracle idx uid rest toRefund
      (d :: res.1, res.2.1, res.2.2)
    else
      let left := d.amount - d.refunded
      if left = 0 ∨ toRefund = 0 then
        let res := withdrawWalk oracle (idx + 1) uid rest toRefund
        (d :: res.1, res.2.1, res.2.2)
      else
        let chunk := min left toRefund
        if (oracle idx).1 then
          let res := withdrawWalk oracle (idx + 1) uid rest (toRefund - chunk)
          ({ d with refunded := d.refunded + chunk } :: res.1, chunk + res.2.1, res.2.2)
        else if d.refunded = 0 ∧ d.amount ≤ toRefund then
          if (oracle idx).2 then
            let res := withdrawWalk oracle (idx + 1) uid rest (toRefund - d.amount)
            ({ d with refunded := d.amount } :: res.1, d.amount + res.2.1, res.2.2)
          else
            (d :: rest, 0, true)
        else
          let res := withdrawWalk oracle (idx + 1) uid rest toRefund
          (d :: res.1, res.2.1, res.2.2)

/-- `withdraw_cmd` (lines 292-370).  On an abort the committed deposit
updates survive, but neither the balance decrement nor the pending
withdrawal insert runs. -/
def withdraw_cmd (st : State) (uid amount : ℕ) (oracle : ℕ → Bool × Bool) : State :=
  if amount = 0 ∨ get_balance st uid < (amount : ℤ) then st
  else
    let res := withdrawWalk oracle 0 uid st.deposits amount
    if res.2.2 then { st with deposits := res.1 }
    else
      let st1 := { st with deposits := res.1 }
      let st2 := if 0 < res.2.1 then add_balance st1 uid (-(res.2.1 : ℤ)) else st1
      if 0 < amount - res.2.1 then
        { st2 with withdrawals := st2.withdrawals ++ [⟨uid, amount, res.2.1, "pending"⟩] }
      else st2

/-- `admin_give` (lines 375-386): an unchecked signed top-up for the
admin account (`int(...)` parses negative amounts too). -/
def admin_give (st : State) (uid : ℕ) (amount : ℤ) : State :=
  if uid ≠ ADMIN_ID then st else add_balance st uid amount

/-- One externally triggered operation of the bot. -/
inductive Op where
  | choose (uid : ℕ) (side : String)
  | bet (uid stake : ℕ) (server_seed client_seed : String)
  | deposit (uid amount : ℕ) (charge_id : Option String)
  | withdraw (uid amount : ℕ) (oracle : ℕ → Bool × Bool)
  | give (uid : ℕ) (amount : ℤ)

/-- Dispatch one operation to its handler. -/
def step (st : State) : Op → State
  | .choose uid side => choose_side st uid side
  | .bet uid stake sseed cseed => place_bet st uid stake sseed cseed
  | .deposit uid amount cid => on_successful_payment st uid amount cid
  | .withdraw uid amount oracle => withdraw_cmd st uid amount oracle
  | .give uid amount => admin_give st uid amount

/-- Run a sequence of operations. -/
def run (ops : List Op) (st : State) : State := ops.foldl step st

/-- Total unreversed deposit amount of one account. -/
def unreversedTotal (deps : List DepositRow) (uid : ℕ) : ℕ :=
  ((deps.filter (fun d => d.user_id = uid)).map (fun d => d.amount - d.refunded)).sum

/-- Modelled from the spec (§4.6), for comparison with `withdrawWalk`:
the reconciler as the spec words it — walk the account's deposits
oldest first and reverse `min(unreversed, remaining requested)` from
each, every reversal succeeding. -/
def fifoReverseSpec (uid : ℕ) : List DepositRow → ℕ → List DepositRow × ℕ
  | [], _ => ([], 0)
  | d :: rest, remaining =>
    if d.user_id = uid then
      let chunk := min (d.amount - d.refunded) remaining
      let res := fifoReverseSpec uid rest (remaining - chunk)
      ({ d with refunded := d.refunded + chunk } :: res.1, chunk + res.2)
    else
      let res := fifoReverseSpec uid rest remaining
      (d :: res.1, res.2)

/-- The guard conjunction under which `place_bet` settles a bet (its
three early-return checks all pass). -/
def betAccepted (st : State) (uid stake : ℕ) : Prop :=
  (MIN_BET ≤ stake ∧ stake ≤ MAX_BET) ∧
  (∃ side, st.pending uid = some side ∧
    (side = "heads" ∨ side = "tails" ∨ side = "edge")) ∧
  (stake : ℤ) ≤ get_balance st uid

/-- An operation whose admin top-up (if any) is nonnegative. -/
def nonNegGive : Op → Prop
  | .give _ amount => 0 ≤ amount
  | _ => True

/-! ## Lemmas about the binary64 rounding -/

/-- `lgAux` is the position of the leading bit, given enough fuel. -/
lemma lgAux_spec : ∀ fuel n, 0 < n → n < 2 ^ fuel →
    2 ^ lgAux fuel n ≤ n ∧ n < 2 ^ (lgAux fuel n + 1) := by
  intro fuel
  induction fuel with
  | zero => intro n h1 h2; norm_num at h2; omega
  | succ f ih =>
      intro n h1 h2
      unfold lgAux
      by_cases hn : n < 2
      · simp only [if_pos hn]; norm_num; omega
      · simp only [if_neg hn]
        have hd : 0 < n / 2 := Nat.div_pos (by omega) (by norm_num)
        have hlt : n / 2 < 2 ^ f := by
          rw [pow_succ] at h2; omega
        obtain ⟨ha, hb⟩ := ih (n / 2) hd hlt
        rw [pow_succ, pow_succ]
        omega

/-- The leading-bit bounds for `lg2` on the 64-bit range. -/
lemma lg2_spec (n : ℕ) (h1 : 0 < n) (h2 : n < 2 ^ 64) :
    2 ^ lg2 n ≤ n ∧ n < 2 ^ (lg2 n + 1) := by
  unfold lg2; exact lgAux_spec 64 n h1 h2

/-- The rounding grid divides its result. -/
lemma roundHE_dvd (d n : ℕ) : d ∣ roundHE d n := by
  simp only [roundHE]
  split_ifs <;> exact Dvd.intro _ rfl

/-- Rounding moves the value up by at most half a grid step. -/
lemma roundHE_le (d n : ℕ) (hd : 0 < d) : 2 * roundHE d n ≤ 2 * n + d := by
  simp only [roundHE]
  have h1 : d * (n / d) + n % d = n := Nat.div_add_mod n d
  have h2 : n % d < d := Nat.mod_lt n hd
  split_ifs <;> (try simp only [Nat.mul_succ]) <;> omega

/-- Rounding moves the value down by at most half a grid step. -/
lemma roundHE_ge (d n : ℕ) (hd : 0 < d) : 2 * n ≤ 2 * roundHE d n + d := by
  simp only [roundHE]
  have h1 : d * (n / d) + n % d = n := Nat.div_add_mod n d
  have h2 : n % d < d := Nat.mod_lt n hd
  split_ifs <;> (try simp only [Nat.mul_succ]) <;> omega

/-- Two distinct multiples of `d` are at least `d` apart. -/
lemma dvd_add_le {d a b : ℕ} (hd : 0 < d) (ha : d ∣ a) (hb : d ∣ b) (h : a < b) :
    a + d ≤ b := by
  obtain ⟨x, rfl⟩ := ha
  obtain ⟨y, rfl⟩ := hb
  have hxy : x < y := Nat.lt_of_mul_lt_mul_left h
  calc d * x + d = d * (x + 1) := by ring
  _ ≤ d * y := Nat.mul_le_mul_left d hxy

/-- Below `2^53` the float grid is exact. -/
lemma roundEven64_eq_self (n : ℕ) (h : n < 2 ^ 53) : roundEven64 n = n := by
  unfold roundEven64
  rw [if_pos (by norm_num at h ⊢; omega)]

/-- From `2^53` on, `roundEven64` rounds on the grid of the leading bit. -/
lemma roundEven64_big (n : ℕ) (h : 2 ^ 53 ≤ n) :
    roundEven64 n = roundHE (2 ^ (lg2 n - 52)) n := by
  unfold roundEven64
  rw [if_neg (by norm_num at h ⊢; omega)]

/-- The two-sided bound and divisibility of `roundEven64` on one binade. -/
lemma roundEven64_sandwich (n : ℕ) (h53 : 2 ^ 53 ≤ n) (h64 : n < 2 ^ 64) :
    2 * roundEven64 n ≤ 2 * n + 2 ^ (lg2 n - 52) ∧
    2 * n ≤ 2 * roundEven64 n + 2 ^ (lg2 n - 52) ∧
    2 ^ (lg2 n - 52) ∣ roundEven64 n := by
  rw [roundEven64_big n h53]
  have hd : 0 < 2 ^ (lg2 n - 52) := Nat.pos_pow_of_pos _ (by norm_num)
  exact ⟨roundHE_le _ _ hd, roundHE_ge _ _ hd, roundHE_dvd _ _⟩

/-- The binade index of an at-least-`2^53` value below `2^64` is in `[53, 63]`. -/
lemma lg2_range (n : ℕ) (h53 : 2 ^ 53 ≤ n) (h64 : n < 2 ^ 64) :
    53 ≤ lg2 n ∧ lg2 n ≤ 63 := by
  have hpos : 0 < n := lt_of_lt_of_le (Nat.pos_pow_of_pos _ (by norm_num)) h53
  obtain ⟨ha, hb⟩ := lg2_spec n hpos h64
  constructor
  · by_contra h
    push_neg at h
    have : 2 ^ (lg2 n + 1) ≤ 2 ^ 53 := Nat.pow_le_pow_right (by norm_num) (by omega)
    omega
  · by_contra h
    push_neg at h
    have : 2 ^ 64 ≤ 2 ^ lg2 n := Nat.pow_le_pow_right (by norm_num) (by omega)
    omega

/-- The float comparison `n / 2**64 < P_HEADS` decides exactly at the
effective integer threshold `9131138316486227456`
(`= binary64(0.495)·2^64 − 512`, half a 62-binade grid step below the
scaled constant, the tie rounding up to the even significand). -/
lemma roundEven64_lt_T_iff (n : ℕ) (hn : n < 2 ^ 64) :
    roundEven64 n < 9131138316486227968 ↔ n < 9131138316486227456 := by
  by_cases h53 : n < 2 ^ 53
  · rw [roundEven64_eq_self n h53]
    norm_num at h53
    omega
  · push_neg at h53
    obtain ⟨hk53, hk63⟩ := lg2_range n h53 hn
    have hpos : 0 < n := lt_of_lt_of_le (Nat.pos_pow_of_pos _ (by norm_num)) h53
    obtain ⟨ha, hb⟩ := lg2_spec n hpos hn
    obtain ⟨hub, hlb, hdvd⟩ := roundEven64_sandwich n h53 hn
    rcases Nat.lt_or_ge (lg2 n) 62 with h62 | h62
    · have hn62 : n < 2 ^ 62 :=
        lt_of_lt_of_le hb (Nat.pow_le_pow_right (by norm_num) (by omega))
      have hdle : 2 ^ (lg2 n - 52) ≤ 2 ^ 9 :=
        Nat.pow_le_pow_right (by norm_num) (by omega)
      have e62 : (2:ℕ) ^ 62 = 4611686018427387904 := by norm_num
      have e9 : (2:ℕ) ^ 9 = 512 := by norm_num
      omega
    · have hk : lg2 n = 62 ∨ lg2 n = 63 := by omega
      rcases hk with hk | hk
      · rw [hk] at hub hlb hdvd
        rw [hk] at ha hb
        norm_num at hub hlb hdvd ha hb
        by_cases hA : n = 9131138316486227456
        · have hcalc : roundEven64 9131138316486227456 = 9131138316486227968 := by decide
          rw [hA, hcalc]
          omega
        · constructor
          · intro hrT
            by_contra hge
            push_neg at hge
            have hstep := dvd_add_le (by norm_num : (0:ℕ) < 1024) hdvd
              (by norm_num : (1024:ℕ) ∣ 9131138316486227968) hrT
            omega
          · intro hnA
            omega
      · rw [hk] at hub hlb hdvd ha hb
        norm_num at hub hlb hdvd ha hb
        have hbig : ¬ roundEven64 n < 9223372036854775808 := by
          intro hlt
          have := dvd_add_le (by norm_num : (0:ℕ) < 2048) hdvd
            (by norm_num : (2048:ℕ) ∣ 9223372036854775808) hlt
          omega
        omega

/-- The float comparison `n / 2**64 < P_HEADS + P_EDGE` decides exactly
at the effective integer threshold `9315605757223322625`. -/
lemma roundEven64_lt_Uq_iff (n : ℕ) (hn : n < 2 ^ 64) :
    roundEven64 n < 9315605757223323488 ↔ n < 9315605757223322625 := by
  by_cases h53 : n < 2 ^ 53
  · rw [roundEven64_eq_self n h53]
    norm_num at h53
    omega
  · push_neg at h53
    obtain ⟨hk53, hk63⟩ := lg2_range n h53 hn
    have hpos : 0 < n := lt_of_lt_of_le (Nat.pos_pow_of_pos _ (by norm_num)) h53
    obtain ⟨ha, hb⟩ := lg2_spec n hpos hn
    obtain ⟨hub, hlb, hdvd⟩ := roundEven64_sandwich n h53 hn
    rcases Nat.lt_or_ge (lg2 n) 63 with h62 | h63
    · have hn63 : n < 2 ^ 63 :=
        lt_of_lt_of_le hb (Nat.pow_le_pow_right (by norm_num) (by omega))
      have hdle : 2 ^ (lg2 n - 52) ≤ 2 ^ 10 :=
        Nat.pow_le_pow_right (by norm_num) (by omega)
      have e63 : (2:ℕ) ^ 63 = 9223372036854775808 := by norm_num
      have e10 : (2:ℕ) ^ 10 = 1024 := by norm_num
      omega
    · have hk : lg2 n = 63 := by omega
      rw [hk] at hub hlb hdvd ha hb
      norm_num at hub hlb hdvd ha hb
      by_cases htie : n = 9315605757223322624
      · have hcalc : roundEven64 9315605757223322624 = 9315605757223321600 := by decide
        rw [htie, hcalc]
        omega
      · rcases Nat.lt_or_ge n 9315605757223322625 with hlo | hhi
        · have hrU : roundEven64 n < 9315605757223323648 := by omega
          have := dvd_add_le (by norm_num : (0:ℕ) < 2048) hdvd
            (by norm_num : (2048:ℕ) ∣ 9315605757223323648) hrU
          omega
        · have hbig : ¬ roundEven64 n < 9315605757223323648 := by
            intro hlt
            have := dvd_add_le (by norm_num : (0:ℕ) < 2048) hdvd
              (by norm_num : (2048:ℕ) ∣ 9315605757223323648) hlt
            omega
          omega

/-- The float value never exceeds 1 (it can equal 1, for
`n > 2^64 − 1024`). -/
lemma roundEven64_le_pow (n : ℕ) (hn : n < 2 ^ 64) : roundEven64 n ≤ 2 ^ 64 := by
  by_cases h53 : n < 2 ^ 53
  · rw [roundEven64_eq_self n h53]
    norm_num at h53 ⊢
    omega
  · push_neg at h53
    obtain ⟨hk53, hk63⟩ := lg2_range n h53 hn
    obtain ⟨hub, hlb, hdvd⟩ := roundEven64_sandwich n h53 hn
    by_contra hgt
    push_neg at hgt
    have hdd : (2:ℕ) ^ (lg2 n - 52) ∣ 2 ^ 64 := pow_dvd_pow 2 (by omega)
    have hd0 : 0 < (2:ℕ) ^ (lg2 n - 52) := Nat.pos_pow_of_pos _ (by norm_num)
    have := dvd_add_le hd0 hdd hdvd hgt
    omega

/-- Scaled form of `x < P_HEADS`. -/
lemma floatDiv64_lt_PHEADS (n : ℕ) :
    floatDiv64 n < P_HEADS ↔ roundEven64 n < 9131138316486227968 := by
  unfold floatDiv64 P_HEADS
  rw [div_lt_div_iff₀ (by norm_num) (by norm_num)]
  have h : (4458563631096791 : ℚ) * 2 ^ 64 = 9131138316486227968 * 2 ^ 53 := by norm_num
  rw [h, mul_lt_mul_right (by norm_num : (0:ℚ) < 2 ^ 53)]
  exact_mod_cast Iff.rfl

/-- The exact value of the threshold sum. -/
lemma PHEADS_add_PEDGE : P_HEADS + P_EDGE = 291112679913228859 / 2 ^ 59 := by
  unfold P_HEADS P_EDGE
  norm_num

/-- Scaled form of `x < P_HEADS + P_EDGE`. -/
lemma floatDiv64_lt_sum (n : ℕ) :
    floatDiv64 n < P_HEADS + P_EDGE ↔ roundEven64 n < 9315605757223323488 := by
  rw [PHEADS_add_PEDGE]
  unfold floatDiv64
  rw [div_lt_div_iff₀ (by norm_num) (by norm_num)]
  have h : (291112679913228859 : ℚ) * 2 ^ 64 = 9315605757223323488 * 2 ^ 59 := by
    norm_num
  rw [h, mul_lt_mul_right (by norm_num : (0:ℚ) < 2 ^ 59)]
  exact_mod_cast Iff.rfl

/-- The outcome of `rngOfN`, characterised by the effective integer
thresholds of the float comparisons. -/
lemma rngOfN_fst_eq (n : ℕ) (hn : n < 2 ^ 64) :
    (rngOfN n).1 =
      if n < 9131138316486227456 then "heads"
      else if n < 9315605757223322625 then "edge"
      else "tails" := by
  unfold rngOfN
  simp only [floatDiv64_lt_PHEADS, floatDiv64_lt_sum,
    roundEven64_lt_T_iff n hn, roundEven64_lt_Uq_iff n hn]
  split_ifs <;> rfl

/-- The second component of `rngOfN` is always the float value. -/
lemma rngOfN_snd (n : ℕ) : (rngOfN n).2 = floatDiv64 n := by
  unfold rngOfN
  split_ifs <;> rfl

/-! ## Byte bounds: the HMAC integer is a 64-bit value -/

/-- Every byte of a SHA-256 digest is below 256. -/
lemma sha256_bytes_lt (msg : List ℕ) : ∀ b ∈ sha256 msg, b < 256 := by
  intro b hb
  unfold sha256 at hb
  rw [List.mem_flatten] at hb
  obtain ⟨l, hl, hbl⟩ := hb
  rw [List.mem_map] at hl
  obtain ⟨w, _, rfl⟩ := hl
  unfold wordBytes at hbl
  simp only [List.mem_cons, List.not_mem_nil, or_false] at hbl
  rcases hbl with rfl | rfl | rfl | rfl <;> exact Nat.mod_lt _ (by norm_num)

/-- Every byte of an HMAC-SHA256 tag is below 256. -/
lemma hmac_bytes_lt (key msg : List ℕ) : ∀ b ∈ hmacSha256 key msg, b < 256 := by
  intro b hb
  simp only [hmacSha256] at hb
  exact sha256_bytes_lt _ b hb

/-- Big-endian accumulation stays below the positional bound. -/
lemma beNat_foldl_lt : ∀ (bs : List ℕ) (acc : ℕ), (∀ b ∈ bs, b < 256) →
    List.foldl (fun a b => a * 256 + b) acc bs < (acc + 1) * 256 ^ bs.length := by
  intro bs
  induction bs with
  | nil => intro acc _; simp
  | cons b tl ih =>
      intro acc h
      simp only [List.foldl_cons, List.length_cons]
      have hb : b < 256 := h b (by simp)
      have htl : ∀ x ∈ tl, x < 256 := fun x hx => h x (by simp [hx])
      calc List.foldl (fun a b => a * 256 + b) (acc * 256 + b) tl
          < (acc * 256 + b + 1) * 256 ^ tl.length := ih _ htl
        _ ≤ (acc + 1) * 256 ^ (tl.length + 1) := by
            rw [pow_succ]
            have hstep : acc * 256 + b + 1 ≤ (acc + 1) * 256 := by omega
            calc (acc * 256 + b + 1) * 256 ^ tl.length
                ≤ (acc + 1) * 256 * 256 ^ tl.length := Nat.mul_le_mul_right _ hstep
              _ = (acc + 1) * (256 ^ tl.length * 256) := by ring

/-- The HMAC-derived integer is a 64-bit value. -/
lemma hmacFirst8_lt (s c : String) (k : ℕ) : hmacFirst8 s c k < 2 ^ 64 := by
  unfold hmacFirst8 beNat
  have hbytes : ∀ b ∈ (hmacSha256 (utf8 s) (utf8 (c ++ ":" ++ toString k))).take 8,
      b < 256 := fun b hb => hmac_bytes_lt _ _ b (List.mem_of_mem_take hb)
  have hlen : ((hmacSha256 (utf8 s) (utf8 (c ++ ":" ++ toString k))).take 8).length ≤ 8 := by
    simp [List.length_take]
  calc List.foldl (fun a b => a * 256 + b) 0
        ((hmacSha256 (utf8 s) (utf8 (c ++ ":" ++ toString k))).take 8)
      < (0 + 1) * 256 ^ ((hmacSha256 (utf8 s) (utf8 (c ++ ":" ++ toString k))).take 8).length :=
        beNat_foldl_lt _ 0 hbytes
    _ ≤ 256 ^ 8 := by
        rw [zero_add, one_mul]
        exact Nat.pow_le_pow_right (by norm_num) hlen
    _ = 2 ^ 64 := by norm_num

/-! ## The float value of a roll -/

/-- The float is nonnegative. -/
lemma floatDiv64_nonneg (n : ℕ) : 0 ≤ floatDiv64 n := by
  unfold floatDiv64; positivity

/-- The float never exceeds 1. -/
lemma floatDiv64_le_one (n : ℕ) (hn : n < 2 ^ 64) : floatDiv64 n ≤ 1 := by
  unfold floatDiv64
  rw [div_le_one (by norm_num)]
  have := roundEven64_le_pow n hn
  exact_mod_cast this

/-- The branch structure of `rngOfN`, as a trichotomy on the float. -/
lemma rngOfN_trichotomy (n : ℕ) :
    ((rngOfN n).1 = "heads" ↔ floatDiv64 n < P_HEADS) ∧
    ((rngOfN n).1 = "edge" ↔
      (P_HEADS ≤ floatDiv64 n ∧ floatDiv64 n < P_HEADS + P_EDGE)) ∧
    ((rngOfN n).1 = "tails" ↔ P_HEADS + P_EDGE ≤ floatDiv64 n) := by
  have hPE : (0:ℚ) ≤ P_EDGE := by unfold P_EDGE; positivity
  unfold rngOfN
  split_ifs with h1 h2
  · refine ⟨⟨fun _ => h1, fun _ => rfl⟩,
      ⟨fun h => ?_, fun hx => absurd h1 (not_lt.mpr hx.1)⟩,
      ⟨fun h => ?_,
        fun hx => absurd h1 (not_lt.mpr (le_trans (le_add_of_nonneg_right hPE) hx))⟩⟩
    · exact absurd (show ("heads" : String) = "edge" from h) (by decide)
    · exact absurd (show ("heads" : String) = "tails" from h) (by decide)
  · refine ⟨⟨fun h => ?_, fun hx => absurd hx (not_lt.mpr (not_lt.mp h1))⟩,
      ⟨fun _ => ⟨not_lt.mp h1, h2⟩, fun _ => rfl⟩,
      ⟨fun h => ?_, fun hx => absurd h2 (not_lt.mpr hx)⟩⟩
    · exact absurd (show ("edge" : String) = "heads" from h) (by decide)
    · exact absurd (show ("edge" : String) = "tails" from h) (by decide)
  · refine ⟨⟨fun h => ?_, fun hx => absurd hx (not_lt.mpr (not_lt.mp h1))⟩,
      ⟨fun h => ?_, fun hx => absurd hx.2 (not_lt.mpr (not_lt.mp h2))⟩,
      ⟨fun _ => not_lt.mp h2, fun _ => rfl⟩⟩
    · exact absurd (show ("tails" : String) = "heads" from h) (by decide)
    · exact absurd (show ("tails" : String) = "edge" from h) (by decide)

/-! ## Rounding lemmas for the payout rule -/

/-- `round` of an integer is that integer. -/
lemma pyRound_intCast (m : ℤ) : pyRound (m : ℚ) = m := by
  unfold pyRound
  rw [Int.floor_intCast]
  norm_num

/-- `round` at an exact half rounds to the even neighbour. -/
lemma pyRound_int_add_half (m : ℤ) :
    pyRound ((m : ℚ) + 1 / 2) = if 2 ∣ m then m else m + 1 := by
  unfold pyRound
  have hf : ⌊(m : ℚ) + 1 / 2⌋ = m := by
    rw [add_comm, Int.floor_add_int, show ⌊(1 / 2 : ℚ)⌋ = 0 by norm_num, zero_add]
  rw [hf]
  norm_num

/-- `round` of a nonnegative value is nonnegative. -/
lemma pyRound_nonneg (q : ℚ) (h : 0 ≤ q) : 0 ≤ pyRound q := by
  unfold pyRound
  have h0 : (0:ℤ) ≤ ⌊q⌋ := Int.floor_nonneg.mpr h
  split_ifs <;> omega

/-- The payout is never negative for a nonnegative stake. -/
lemma payout_for_nonneg (o c : String) (s : ℤ) (hs : 0 ≤ s) : 0 ≤ payout_for o c s := by
  unfold payout_for
  have hsq : (0:ℚ) ≤ (s : ℚ) := by exact_mod_cast hs
  split_ifs
  · exact pyRound_nonneg _ (by unfold MULT_EDGE; positivity)
  · exact pyRound_nonneg _ (by unfold MULT_SIDE; positivity)
  · exact le_refl 0

/-! ## Claim theorems -/

set_option maxRecDepth 100000 in
/-- C1 (counterexample): at the concrete input
`serverSeed = "a"`, `clientSeed = "b"`, `nonce = 1`, the value
`rng_roll` returns differs from the spec's exact-arithmetic deriver:
the HMAC integer is `n = 8727958416346756313`, and the float
`n / 2**64` is `8727958416346756096 / 2^64 ≠ n / 2^64`, so the claimed
`x = n / 2^64` is not what `derive` computes. -/
theorem c1_exact_division_counterexample :
    rng_roll "a" "b" 1 ≠ deriveSpec "a" "b" 1 := by
  have hn : hmacFirst8 "a" "b" 1 = 8727958416346756313 := by decide
  have hr : roundEven64 8727958416346756313 = 8727958416346756096 := by decide
  intro h
  have h2 := congrArg Prod.snd h
  have hL : (rng_roll "a" "b" 1).2 = floatDiv64 8727958416346756313 := by
    show (rngOfN (hmacFirst8 "a" "b" 1)).2 = _
    rw [rngOfN_snd, hn]
  have hR : (deriveSpec "a" "b" 1).2 = ((8727958416346756313 : ℕ) : ℚ) / 2 ^ 64 := by
    have hsplit : (deriveSpec "a" "b" 1).2 = ((hmacFirst8 "a" "b" 1 : ℕ) : ℚ) / 2 ^ 64 := by
      unfold deriveSpec
      split_ifs <;> rfl
    rw [hsplit, hn]
  rw [hL, hR] at h2
  unfold floatDiv64 at h2
  rw [hr] at h2
  norm_num at h2

/-- C1 (amended): `derive(serverSeed, clientSeed, nonce)` computes
HMAC-SHA256 keyed by the UTF-8 server seed over `"{clientSeed}:{nonce}"`,
takes the first 8 bytes big-endian as `n < 2^64`, sets `x` to the
binary64 value of `n / 2^64` (so `x ∈ [0, 1]`), and maps `x` by
left-closed intervals whose boundaries are the binary64 constants
`P_HEADS` and `P_HEADS + P_EDGE` (the doubles nearest `0.495` and
`0.505`); the function is pure, so two calls with identical inputs
return the identical pair. -/
theorem c1_derive_pipeline (server_seed client_seed : String) (nonce : ℕ) :
    ∃ n : ℕ,
      n = beNat ((hmacSha256 (utf8 server_seed)
          (utf8 (client_seed ++ ":" ++ toString nonce))).take 8) ∧
      n < 2 ^ 64 ∧
      (rng_roll server_seed client_seed nonce).2 = floatDiv64 n ∧
      0 ≤ (rng_roll server_seed client_seed nonce).2 ∧
      (rng_roll server_seed client_seed nonce).2 ≤ 1 ∧
      ((rng_roll server_seed client_seed nonce).1 = "heads" ↔ floatDiv64 n < P_HEADS) ∧
      ((rng_roll server_seed client_seed nonce).1 = "edge" ↔
        (P_HEADS ≤ floatDiv64 n ∧ floatDiv64 n < P_HEADS + P_EDGE)) ∧
      ((rng_roll server_seed client_seed nonce).1 = "tails" ↔
        P_HEADS + P_EDGE ≤ floatDiv64 n) ∧
      rng_roll server_seed client_seed nonce = rng_roll server_seed client_seed nonce := by
  obtain ⟨t1, t2, t3⟩ := rngOfN_trichotomy (hmacFirst8 server_seed client_seed nonce)
  refine ⟨hmacFirst8 server_seed client_seed nonce, rfl, hmacFirst8_lt _ _ _,
    rngOfN_snd _, ?_, ?_, t1, t2, t3, rfl⟩
  · rw [show (rng_roll server_seed client_seed nonce).2
        = floatDiv64 (hmacFirst8 server_seed client_seed nonce) from rngOfN_snd _]
    exact floatDiv64_nonneg _
  · rw [show (rng_roll server_seed client_seed nonce).2
        = floatDiv64 (hmacFirst8 server_seed client_seed nonce) from rngOfN_snd _]
    exact floatDiv64_le_one _ (hmacFirst8_lt _ _ _)

/-- C2 (counterexample): for the 64-bit value `n = 9131138316486228000`
the code's float comparison yields `edge`, although comparing `n`
directly against the pre-scaled threshold `0.495·2^64` yields the
first face (`n < 0.495·2^64`): the binary64 division does round at the
boundary. -/
theorem c2_boundary_drift_counterexample :
    (rngOfN 9131138316486228000).1 = "edge" ∧
    ((9131138316486228000 : ℚ) < 495 / 1000 * 2 ^ 64) := by
  constructor
  · rw [rngOfN_fst_eq 9131138316486228000 (by norm_num)]
    norm_num
  · norm_num

/-- C2 (amended): for every 64-bit `n`, the outcome equals comparing
`n` against the *effective* integer thresholds `9131138316486227456`
and `9315605757223322625` — the points where the binary64 comparisons
`n/2^64 < 0.495` and `n/2^64 < 0.495 + 0.010` actually flip; these
differ from the exact pre-scaled thresholds `0.495·2^64` and
`0.505·2^64` by the boundary drift exhibited in the counterexample. -/
theorem c2_effective_integer_thresholds (n : ℕ) (hn : n < 2 ^ 64) :
    ((rngOfN n).1 = "heads" ↔ n < 9131138316486227456) ∧
    ((rngOfN n).1 = "edge" ↔
      (9131138316486227456 ≤ n ∧ n < 9315605757223322625)) ∧
    ((rngOfN n).1 = "tails" ↔ 9315605757223322625 ≤ n) := by
  rw [rngOfN_fst_eq n hn]
  split_ifs with h1 h2 <;> refine ⟨?_, ?_, ?_⟩ <;> simp <;> omega

/-- C2 (witness): the amended theorem applied at `n = 0`. -/
theorem c2_effective_integer_thresholds_witness : (rngOfN 0).1 = "heads" :=
  ((c2_effective_integer_thresholds 0 (by norm_num)).1).mpr (by norm_num)

/-- C3: the payout rule — edge pays `round(stake·8.0) = 8·stake`
regardless of the chosen side, a matched side pays
`round(stake·1.75)`, a miss pays 0; and any roll whose float equals
`0.50` is an edge outcome, paying `8000` on a stake of `1000` for a
net balance change of `+7000`. -/
theorem c3_payout_rule :
    (∀ (chosen : String) (stake : ℤ),
        payout_for "edge" chosen stake = pyRound ((stake : ℚ) * MULT_EDGE) ∧
        payout_for "edge" chosen stake = 8 * stake) ∧
    (∀ (outcome chosen : String) (stake : ℤ), outcome ≠ "edge" → outcome = chosen →
        payout_for outcome chosen stake = pyRound ((stake : ℚ) * MULT_SIDE)) ∧
    (∀ (outcome chosen : String) (stake : ℤ), outcome ≠ "edge" → outcome ≠ chosen →
        payout_for outcome chosen stake = 0) ∧
    (∀ n : ℕ, (rngOfN n).2 = 1 / 2 →
        rngOfN n = ("edge", 1 / 2) ∧
        ∀ side : String, payout_for (rngOfN n).1 side 1000 = 8000 ∧
          -(1000 : ℤ) + payout_for (rngOfN n).1 side 1000 = 7000) ∧
    (∀ (s c : String) (k : ℕ), rng_roll s c k = rngOfN (hmacFirst8 s c k)) := by
  refine ⟨?_, ?_, ?_, ?_, fun s c k => rfl⟩
  · intro chosen stake
    constructor
    · unfold payout_for
      rw [if_pos rfl]
    · unfold payout_for
      rw [if_pos rfl,
        show ((stake : ℤ) : ℚ) * MULT_EDGE = ((8 * stake : ℤ) : ℚ) by
          unfold MULT_EDGE; push_cast; ring]
      exact pyRound_intCast _
  · intro outcome chosen stake h1 h2
    unfold payout_for
    rw [if_neg h1, if_pos h2]
  · intro outcome chosen stake h1 h2
    unfold payout_for
    rw [if_neg h1, if_neg h2]
  · intro n hx
    have hfl : floatDiv64 n = 1 / 2 := by rw [← rngOfN_snd n]; exact hx
    have hpair : rngOfN n = ("edge", 1 / 2) := by
      unfold rngOfN
      rw [hfl, if_neg (by unfold P_HEADS; norm_num),
        if_pos (by unfold P_HEADS P_EDGE; norm_num)]
    refine ⟨hpair, fun side => ?_⟩
    have ho : (rngOfN n).1 = "edge" := by rw [hpair]
    rw [ho]
    have h8 : payout_for "edge" side 1000 = 8000 := by
      unfold payout_for
      rw [if_pos rfl,
        show ((1000 : ℤ) : ℚ) * MULT_EDGE = ((8000 : ℤ) : ℚ) by unfold MULT_EDGE; norm_num]
      rw [pyRound_intCast]
    exact ⟨h8, by rw [h8]; norm_num⟩

/-- C3 (witness): the payout rule evaluated at concrete inputs, and the
roll at `n = 2^63` (the float is exactly `0.50`) is an edge. -/
theorem c3_payout_rule_witness :
    payout_for "edge" "tails" 1000 = 8000 ∧
    payout_for "heads" "heads" 1000 = 1750 ∧
    payout_for "heads" "tails" 1000 = 0 ∧
    rngOfN (2 ^ 63) = ("edge", 1 / 2) := by
  obtain ⟨h1, h2, h3, h4, _⟩ := c3_payout_rule
  refine ⟨?_, ?_, ?_, ?_⟩
  · rw [(h1 "tails" 1000).2]
    norm_num
  · rw [h2 "heads" "heads" 1000 (by decide) rfl,
      show ((1000 : ℤ) : ℚ) * MULT_SIDE = ((1750 : ℤ) : ℚ) by unfold MULT_SIDE; norm_num]
    exact pyRound_intCast 1750
  · exact h3 "heads" "tails" 1000 (by decide) (by decide)
  · refine (h4 (2 ^ 63) ?_).1
    rw [rngOfN_snd]
    unfold floatDiv64
    rw [show roundEven64 (2 ^ 63) = 2 ^ 63 from by decide]
    norm_num

/-- C4 (counterexample): a matched-side win with stake 102 has the
exact product `178.5`, and the payout is `178` — the even neighbour —
not `179` as round-half-away-from-zero would give. -/
theorem c4_round_half_away_counterexample :
    ((102 : ℤ) : ℚ) * MULT_SIDE = 357 / 2 ∧
    payout_for "heads" "heads" 102 = 178 ∧
    payout_for "heads" "heads" 102 ≠ 179 := by
  have hp : payout_for "heads" "heads" 102 = 178 := by
    unfold payout_for
    rw [if_neg (by decide), if_pos rfl,
      show ((102 : ℤ) : ℚ) * MULT_SIDE = ((178 : ℤ) : ℚ) + 1 / 2 by unfold MULT_SIDE; norm_num,
      pyRound_int_add_half]
    norm_num
  exact ⟨by unfold MULT_SIDE; norm_num, hp, by rw [hp]; norm_num⟩

/-- C4 (amended): the rounding applied to the side-multiplier product
is round-half-to-even — whenever the product is exactly `m + 1/2` the
payout is the even neighbour of the half, never systematically the
integer further from zero. -/
theorem c4_round_half_even (stake m : ℤ)
    (h : (stake : ℚ) * MULT_SIDE = (m : ℚ) + 1 / 2) :
    payout_for "heads" "heads" stake = if 2 ∣ m then m else m + 1 := by
  unfold payout_for
  rw [if_neg (by decide), if_pos rfl, h, pyRound_int_add_half]

/-- C4 (witness): the amended theorem applied at stake 102, where the
product is `178 + 1/2` and `178` is even. -/
theorem c4_round_half_even_witness : payout_for "heads" "heads" 102 = 178 := by
  rw [c4_round_half_even 102 178 (by unfold MULT_SIDE; norm_num)]
  norm_num

/-! ## The settlement path -/

/-- The record `place_bet` logs when all guards pass. -/
def settledRow (uid stake : ℕ) (sseed cseed side : String) : RoundRow :=
  ⟨uid, side, stake, sseed, cseed, 1, make_commit sseed,
    (rng_roll sseed cseed 1).1,
    payout_for (rng_roll sseed cseed 1).1 side (stake : ℤ)⟩

/-- When every guard passes, `place_bet` debits the stake, credits the
payout, and appends exactly the settled record. -/
lemma place_bet_accept (st : State) (uid stake : ℕ) (sseed cseed side : String)
    (hpend : st.pending uid = some side)
    (hside : side = "heads" ∨ side = "tails" ∨ side = "edge")
    (hlo : MIN_BET ≤ stake) (hhi : stake ≤ MAX_BET)
    (hbal : (stake : ℤ) ≤ get_balance st uid) :
    place_bet st uid stake sseed cseed =
      { st with
        balances := fun u => if u = uid
          then st.balances u - (stake : ℤ) +
            payout_for (rng_roll sseed cseed 1).1 side (stake : ℤ)
          else st.balances u,
        bets := st.bets ++ [settledRow uid stake sseed cseed side] } := by
  unfold place_bet
  rw [if_neg (not_not_intro ⟨hlo, hhi⟩), hpend]
  dsimp only
  rw [if_neg (not_not_intro hside), if_neg (not_lt.mpr hbal)]
  unfold settledRow
  by_cases hp : payout_for (rng_roll sseed cseed 1).1 side (stake : ℤ) ≠ 0
  · rw [if_pos hp]
    unfold add_balance
    cases st with
    | mk bal bets deps wds pend =>
        simp only [State.mk.injEq, and_true, true_and]
        funext u
        by_cases hu : u = uid <;> simp [hu] <;> ring
  · rw [if_neg hp]
    push_neg at hp
    unfold add_balance
    cases st with
    | mk bal bets deps wds pend =>
        simp only [State.mk.injEq, and_true, true_and]
        funext u
        by_cases hu : u = uid <;> simp [hu, hp] <;> ring

/-- When any guard fails, `place_bet` performs no mutation at all. -/
lemma place_bet_reject (st : State) (uid stake : ℕ) (sseed cseed : String)
    (h : ¬ betAccepted st uid stake) :
    place_bet st uid stake sseed cseed = st := by
  unfold betAccepted at h
  unfold place_bet
  by_cases h1 : MIN_BET ≤ stake ∧ stake ≤ MAX_BET
  · rw [if_neg (not_not_intro h1)]
    cases hpend : st.pending uid with
    | none => rfl
    | some side =>
        dsimp only
        by_cases h2 : side = "heads" ∨ side = "tails" ∨ side = "edge"
        · have h3 : get_balance st uid < (stake : ℤ) := by
            by_contra h4
            push_neg at h4
            exact h ⟨h1, ⟨side, hpend, h2⟩, h4⟩
          rw [if_neg (not_not_intro h2), if_pos h3]
        · rw [if_pos h2]
  · rw [if_pos h1]

/-- C5: the Round record appended by the settlement path is internally
consistent for audit: its stored commitment is the SHA-256 hex digest
of its stored server seed, and its stored outcome and payout are what
`rng_roll` and `payout_for` recompute from its stored seeds, nonce,
side and stake. -/
theorem c5_round_record_consistent (st : State) (uid stake : ℕ)
    (sseed cseed side : String)
    (hpend : st.pending uid = some side)
    (hside : side = "heads" ∨ side = "tails" ∨ side = "edge")
    (hlo : MIN_BET ≤ stake) (hhi : stake ≤ MAX_BET)
    (hbal : (stake : ℤ) ≤ get_balance st uid) :
    ∃ r : RoundRow,
      (place_bet st uid stake sseed cseed).bets = st.bets ++ [r] ∧
      r.commit_hash = make_commit r.server_seed ∧
      r.outcome = (rng_roll r.server_seed r.client_seed r.nonce).1 ∧
      r.payout = payout_for r.outcome r.side (r.stake : ℤ) ∧
      r.user_id = uid ∧ r.side = side ∧ r.stake = stake ∧
      r.server_seed = sseed ∧ r.client_seed = cseed := by
  refine ⟨settledRow uid stake sseed cseed side, ?_, rfl, rfl, rfl, rfl, rfl, rfl, rfl, rfl⟩
  rw [place_bet_accept st uid stake sseed cseed side hpend hside hlo hhi hbal]

/-- C5 (witness): a concrete settled round. -/
theorem c5_round_record_consistent_witness :
    ∃ r : RoundRow,
      (place_bet
        ⟨fun u => if u = 7 then 1000 else 0, [], [], [],
          fun u => if u = 7 then some "heads" else none⟩ 7 1000 "a" "b").bets
        = [] ++ [r] ∧
      r.commit_hash = make_commit r.server_seed ∧
      r.outcome = (rng_roll r.server_seed r.client_seed r.nonce).1 ∧
      r.payout = payout_for r.outcome r.side (r.stake : ℤ) ∧
      r.user_id = 7 ∧ r.side = "heads" ∧ r.stake = 1000 ∧
      r.server_seed = "a" ∧ r.client_seed = "b" :=
  c5_round_record_consistent
    ⟨fun u => if u = 7 then 1000 else 0, [], [], [],
      fun u => if u = 7 then some "heads" else none⟩ 7 1000 "a" "b" "heads"
    rfl (Or.inl rfl) (by norm_num [MIN_BET]) (by norm_num [MAX_BET])
    (by norm_num [get_balance])

/-- C6: if the stake is in `[MIN_BET, MAX_BET]`, a legal side is
pending and the balance covers the stake, the settled balance is the
old balance minus the stake plus the payout and exactly one Round
record is appended; otherwise `place_bet` mutates nothing. -/
theorem c6_settlement_balance (st : State) (uid stake : ℕ) (sseed cseed : String) :
    (∀ side, st.pending uid = some side →
      (side = "heads" ∨ side = "tails" ∨ side = "edge") →
      MIN_BET ≤ stake → stake ≤ MAX_BET →
      (stake : ℤ) ≤ get_balance st uid →
      get_balance (place_bet st uid stake sseed cseed) uid
          = get_balance st uid - (stake : ℤ) +
            payout_for (rng_roll sseed cseed 1).1 side (stake : ℤ) ∧
      (place_bet st uid stake sseed cseed).bets
          = st.bets ++ [settledRow uid stake sseed cseed side]) ∧
    (¬ betAccepted st uid stake → place_bet st uid stake sseed cseed = st) := by
  constructor
  · intro side hpend hside hlo hhi hbal
    rw [place_bet_accept st uid stake sseed cseed side hpend hside hlo hhi hbal]
    exact ⟨by simp [get_balance], rfl⟩
  · exact place_bet_reject st uid stake sseed cseed

/-- C6 (witness): one accepted bet and one rejected bet (stake below
the minimum), at concrete states. -/
theorem c6_settlement_balance_witness :
    (get_balance (place_bet
        ⟨fun u => if u = 7 then 1000 else 0, [], [], [],
          fun u => if u = 7 then some "tails" else none⟩ 7 1000 "a" "b") 7
      = 1000 - (1000 : ℤ) + payout_for (rng_roll "a" "b" 1).1 "tails" 1000) ∧
    place_bet initState 7 50 "a" "b" = initState := by
  constructor
  · have h := (c6_settlement_balance
      ⟨fun u => if u = 7 then 1000 else 0, [], [], [],
        fun u => if u = 7 then some "tails" else none⟩ 7 1000 "a" "b").1
      "tails" rfl (Or.inr (Or.inl rfl)) (by norm_num [MIN_BET]) (by norm_num [MAX_BET])
      (by norm_num [get_balance])
    rw [h.1]
    norm_num [get_balance]
  · refine (c6_settlement_balance initState 7 50 "a" "b").2 ?_
    intro hacc
    have := hacc.1.1
    norm_num [MIN_BET] at this

/-! ## The reconciler loop -/

/-- Whatever the external calls do, the loop never auto-refunds more
than was requested. -/
lemma withdrawWalk_auto_le (oracle : ℕ → Bool × Bool) (uid : ℕ) :
    ∀ (deps : List DepositRow) (idx toRefund : ℕ),
      (withdrawWalk oracle idx uid deps toRefund).2.1 ≤ toRefund := by
  intro deps
  induction deps with
  | nil => intro idx t; simp [withdrawWalk]
  | cons d rest ih =>
      intro idx t
      unfold withdrawWalk
      dsimp only
      split_ifs with h1 h2 h3 h4 h5 <;> dsimp only
      · exact ih idx t
      · exact ih (idx + 1) t
      · have := ih (idx + 1) (t - min (d.amount - d.refunded) t)
        omega
      · have := ih (idx + 1) (t - d.amount)
        omega
      · omega
      · exact ih (idx + 1) t

/-- When every partial-refund call succeeds, the loop is exactly the
FIFO greedy walk of the spec, and never aborts. -/
lemma withdrawWalk_allOk (oracle : ℕ → Bool × Bool) (hok : ∀ k, (oracle k).1 = true)
    (uid : ℕ) :
    ∀ (deps : List DepositRow) (idx toRefund : ℕ),
      withdrawWalk oracle idx uid deps toRefund =
        ((fifoReverseSpec uid deps toRefund).1,
          (fifoReverseSpec uid deps toRefund).2, false) := by
  intro deps
  induction deps with
  | nil => intro idx t; simp [withdrawWalk, fifoReverseSpec]
  | cons d rest ih =>
      intro idx t
      unfold withdrawWalk fifoReverseSpec
      dsimp only
      by_cases hu : d.user_id = uid
      · rw [if_neg (not_not_intro hu), if_pos hu]
        by_cases hskip : d.amount - d.refunded = 0 ∨ t = 0
        · rw [if_pos hskip, ih (idx + 1) t]
          have hc : min (d.amount - d.refunded) t = 0 := by omega
          rw [hc]
          cases d
          simp
        · rw [if_neg hskip, if_pos (hok idx), ih (idx + 1) (t - min (d.amount - d.refunded) t)]
      · rw [if_pos hu, if_neg hu, ih idx t]

/-- The FIFO greedy walk reverses exactly
`min(requested, total unreversed)`. -/
lemma fifoReverseSpec_sum (uid : ℕ) :
    ∀ (deps : List DepositRow) (t : ℕ),
      (fifoReverseSpec uid deps t).2 = min t (unreversedTotal deps uid) := by
  intro deps
  induction deps with
  | nil => intro t; simp [fifoReverseSpec, unreversedTotal]
  | cons d rest ih =>
      intro t
      unfold fifoReverseSpec
      by_cases hu : d.user_id = uid
      · rw [if_pos hu]
        dsimp only
        rw [ih (t - min (d.amount - d.refunded) t)]
        have hcons : unreversedTotal (d :: rest) uid
            = (d.amount - d.refunded) + unreversedTotal rest uid := by
          unfold unreversedTotal
          rw [List.filter_cons, if_pos (by simp [hu])]
          simp
        rw [hcons]
        omega
      · rw [if_neg hu]
        dsimp only
        rw [ih t]
        have hcons : unreversedTotal (d :: rest) uid = unreversedTotal rest uid := by
          unfold unreversedTotal
          rw [List.filter_cons, if_neg (by simp [hu])]
        rw [hcons]

/-- When every reversal call succeeds and the request passes the
balance guard, `withdraw_cmd` applies the FIFO walk, debits exactly the
auto-reversed amount, and files a pending withdrawal for any rest. -/
lemma withdraw_cmd_allOk_eq (st : State) (uid amount : ℕ) (oracle : ℕ → Bool × Bool)
    (hok : ∀ k, (oracle k).1 = true) (hpos : amount ≠ 0)
    (hbal : (amount : ℤ) ≤ get_balance st uid) :
    withdraw_cmd st uid amount oracle =
      (if 0 < amount - (fifoReverseSpec uid st.deposits amount).2 then
        { st with
          deposits := (fifoReverseSpec uid st.deposits amount).1,
          balances := fun u => if u = uid
            then st.balances u - ((fifoReverseSpec uid st.deposits amount).2 : ℤ)
            else st.balances u,
          withdrawals := st.withdrawals ++
            [⟨uid, amount, (fifoReverseSpec uid st.deposits amount).2, "pending"⟩] }
      else
        { st with
          deposits := (fifoReverseSpec uid st.deposits amount).1,
          balances := fun u => if u = uid
            then st.balances u - ((fifoReverseSpec uid st.deposits amount).2 : ℤ)
            else st.balances u }) := by
  unfold withdraw_cmd
  rw [if_neg (by push_neg; exact ⟨hpos, hbal⟩)]
  dsimp only
  rw [withdrawWalk_allOk oracle hok uid st.deposits 0 amount]
  dsimp only
  rw [if_neg Bool.false_ne_true]
  by_cases ha : 0 < (fifoReverseSpec uid st.deposits amount).2
  · rw [if_pos ha]
    unfold add_balance
    split_ifs with hrest
    · cases st with
      | mk bal bets deps wds pend =>
          simp only [State.mk.injEq, and_true, true_and]
          funext u
          by_cases hu : u = uid <;> simp [hu] <;> ring
    · cases st with
      | mk bal bets deps wds pend =>
          simp only [State.mk.injEq, and_true, true_and]
          funext u
          by_cases hu : u = uid <;> simp [hu] <;> ring
  · rw [if_neg ha]
    have h0 : (fifoReverseSpec uid st.deposits amount).2 = 0 := by omega
    split_ifs with hrest
    · cases st with
      | mk bal bets deps wds pend =>
          simp only [State.mk.injEq, and_true, true_and, h0]
          funext u
          by_cases hu : u = uid <;> simp [hu]
    · cases st with
      | mk bal bets deps wds pend =>
          simp only [State.mk.injEq, and_true, true_and, h0]
          funext u
          by_cases hu : u = uid <;> simp [hu]

/-- C8: assuming every external reversal succeeds, the reconciler walks
the account's deposits oldest first reversing
`min(unreversed, remaining)` from each (the FIFO greedy walk), debits
only the auto-reversed total `min(request, unreversed total)`, and
files a pending withdrawal exactly for a positive shortfall; plus the
two concrete scenarios: deposits 600 and 400 with a request of 700
reverse 600 then 100 with no pending record, and balance 1500 with
1000 unreversed and a request of 1500 auto-reverse 1000 and file a
pending withdrawal whose shortfall is 500. -/
theorem c8_fifo_reconciler (st : State) (uid amount : ℕ) (oracle : ℕ → Bool × Bool)
    (hok : ∀ k, (oracle k).1 = true) (hpos : amount ≠ 0)
    (hbal : (amount : ℤ) ≤ get_balance st uid) :
    ((withdraw_cmd st uid amount oracle).deposits
        = (fifoReverseSpec uid st.deposits amount).1 ∧
      get_balance (withdraw_cmd st uid amount oracle) uid
        = get_balance st uid - (min amount (unreversedTotal st.deposits uid) : ℤ) ∧
      (withdraw_cmd st uid amount oracle).withdrawals
        = (if unreversedTotal st.deposits uid < amount then
            st.withdrawals ++
              [⟨uid, amount, min amount (unreversedTotal st.deposits uid), "pending"⟩]
          else st.withdrawals) ∧
      (withdraw_cmd st uid amount oracle).bets = st.bets) ∧
    ((withdraw_cmd
        ⟨fun u => if u = 7 then 1000 else 0, [],
          [⟨7, "d1", 600, 0⟩, ⟨7, "d2", 400, 0⟩], [], fun _ => none⟩
        7 700 (fun _ => (true, true))).deposits
        = [⟨7, "d1", 600, 600⟩, ⟨7, "d2", 400, 100⟩] ∧
      (withdraw_cmd
        ⟨fun u => if u = 7 then 1000 else 0, [],
          [⟨7, "d1", 600, 0⟩, ⟨7, "d2", 400, 0⟩], [], fun _ => none⟩
        7 700 (fun _ => (true, true))).balances 7 = 300 ∧
      (withdraw_cmd
        ⟨fun u => if u = 7 then 1000 else 0, [],
          [⟨7, "d1", 600, 0⟩, ⟨7, "d2", 400, 0⟩], [], fun _ => none⟩
        7 700 (fun _ => (true, true))).withdrawals = []) ∧
    ((withdraw_cmd
        ⟨fun u => if u = 7 then 1500 else 0, [],
          [⟨7, "d1", 600, 0⟩, ⟨7, "d2", 400, 0⟩], [], fun _ => none⟩
        7 1500 (fun _ => (true, true))).balances 7 = 500 ∧
      (withdraw_cmd
        ⟨fun u => if u = 7 then 1500 else 0, [],
          [⟨7, "d1", 600, 0⟩, ⟨7, "d2", 400, 0⟩], [], fun _ => none⟩
        7 1500 (fun _ => (true, true))).withdrawals
        = [⟨7, 1500, 1000, "pending"⟩] ∧
      (1500 : ℕ) - 1000 = 500) := by
  refine ⟨?_, by refine ⟨?_, ?_, ?_⟩ <;> rfl, by refine ⟨?_, ?_, ?_⟩ <;> rfl⟩
  have hsum := fifoReverseSpec_sum uid st.deposits amount
  rw [withdraw_cmd_allOk_eq st uid amount oracle hok hpos hbal]
  by_cases hT : unreversedTotal st.deposits uid < amount
  · rw [if_pos (by omega), if_pos hT]
    exact ⟨rfl, by simp [get_balance, hsum], by rw [hsum], rfl⟩
  · rw [if_neg (by omega), if_neg hT]
    exact ⟨rfl, by simp [get_balance, hsum], rfl, rfl⟩

/-- C8 (witness): the reconciler theorem applied at the first concrete
scenario. -/
theorem c8_fifo_reconciler_witness :
    get_balance (withdraw_cmd
        ⟨fun u => if u = 7 then 1000 else 0, [],
          [⟨7, "d1", 600, 0⟩, ⟨7, "d2", 400, 0⟩], [], fun _ => none⟩
        7 700 (fun _ => (true, true))) 7
      = 1000 - (min 700 (unreversedTotal
          [⟨7, "d1", 600, 0⟩, ⟨7, "d2", 400, 0⟩] 7) : ℤ) := by
  have h := (c8_fifo_reconciler
    ⟨fun u => if u = 7 then 1000 else 0, [],
      [⟨7, "d1", 600, 0⟩, ⟨7, "d2", 400, 0⟩], [], fun _ => none⟩
    7 700 (fun _ => (true, true)) (fun k => rfl) (by norm_num)
    (by norm_num [get_balance])).1.2.1
  rw [h]
  norm_num [get_balance]

/-! ## Balance nonnegativity -/

/-- `withdraw_cmd` never drives a balance negative: it debits only the
auto-reversed amount, which is bounded by the request, which is
bounded by the balance. -/
lemma withdraw_cmd_nonneg (st : State) (uid amount : ℕ) (oracle : ℕ → Bool × Bool)
    (h0 : ∀ u, 0 ≤ st.balances u) : ∀ u, 0 ≤ (withdraw_cmd st uid amount oracle).balances u := by
  intro u
  have hle := withdrawWalk_auto_le oracle uid st.deposits 0 amount
  unfold withdraw_cmd
  dsimp only
  split_ifs with h1 h2 h3 h4 h5 h6 <;>
    first
      | exact h0 u
      | (unfold add_balance
         dsimp only
         by_cases hu : u = uid
         · rw [if_pos hu]
           subst hu
           push_neg at h1
           have hba := h1.2
           unfold get_balance at hba
           omega
         · rw [if_neg hu]
           exact h0 u)

/-- One step of any operation keeps all balances nonnegative, provided
an admin top-up (the only unguarded signed delta) is nonnegative. -/
lemma step_nonneg (st : State) (op : Op) (h0 : ∀ u, 0 ≤ st.balances u)
    (hop : nonNegGive op) : ∀ u, 0 ≤ (step st op).balances u := by
  cases op with
  | choose uid side => exact h0
  | bet uid stake sseed cseed =>
      by_cases hacc : betAccepted st uid stake
      · obtain ⟨⟨hlo, hhi⟩, ⟨side, hpend, hside⟩, hbal⟩ := hacc
        intro u
        rw [show step st (.bet uid stake sseed cseed)
              = place_bet st uid stake sseed cseed from rfl,
          place_bet_accept st uid stake sseed cseed side hpend hside hlo hhi hbal]
        dsimp only
        by_cases hu : u = uid
        · rw [if_pos hu]
          subst hu
          have hpay := payout_for_nonneg (rng_roll sseed cseed 1).1 side (stake : ℤ)
            (Int.natCast_nonneg stake)
          unfold get_balance at hbal
          omega
        · rw [if_neg hu]
          exact h0 u
      · rw [show step st (.bet uid stake sseed cseed)
              = place_bet st uid stake sseed cseed from rfl,
          place_bet_reject st uid stake sseed cseed hacc]
        exact h0
  | deposit uid amount cid =>
      intro u
      show 0 ≤ (on_successful_payment st uid amount cid).balances u
      unfold on_successful_payment add_balance
      have ha : (0:ℤ) ≤ (amount : ℤ) := Int.natCast_nonneg amount
      cases cid <;> dsimp only <;> by_cases hu : u = uid
      · rw [if_pos hu]; have := h0 u; omega
      · rw [if_neg hu]; exact h0 u
      · rw [if_pos hu]; have := h0 u; omega
      · rw [if_neg hu]; exact h0 u
  | withdraw uid amount oracle => exact withdraw_cmd_nonneg st uid amount oracle h0
  | give uid amount =>
      intro u
      show 0 ≤ (admin_give st uid amount).balances u
      unfold admin_give add_balance
      split_ifs with h1
      · exact h0 u
      · dsimp only
        by_cases hu : u = uid
        · rw [if_pos hu]
          have := h0 u
          have : (0:ℤ) ≤ amount := hop
          omega
        · rw [if_neg hu]
          exact h0 u

/-- C7 (counterexample): the admin top-up parses negative amounts and
applies them unchecked, so `/give -5` on a zero balance drives the
admin balance to `-5 < 0`. -/
theorem c7_negative_give_counterexample :
    (step initState (Op.give ADMIN_ID (-5))).balances ADMIN_ID = -5 ∧
    (step initState (Op.give ADMIN_ID (-5))).balances ADMIN_ID < 0 := by
  exact ⟨by decide, by decide⟩

/-- C7 (amended): starting from nonnegative balances, every sequence of
exposed operations (bets, deposits, withdrawals, admin top-ups) keeps
every balance nonnegative — provided each admin top-up amount is
nonnegative; every debit (stake, auto-reversal) is guarded by a
sufficient-balance check. -/
theorem c7_balances_nonneg (ops : List Op) (st : State)
    (h0 : ∀ u, 0 ≤ st.balances u)
    (hops : ∀ op ∈ ops, nonNegGive op) :
    ∀ u, 0 ≤ (run ops st).balances u := by
  induction ops generalizing st with
  | nil => exact h0
  | cons op rest ih =>
      exact ih (step st op) (step_nonneg st op h0 (hops op (by simp)))
        (fun o ho => hops o (by simp [ho]))

/-- C7 (witness): the amended theorem applied to a single nonnegative
admin top-up from the initial state. -/
theorem c7_balances_nonneg_witness :
    0 ≤ (run [Op.give ADMIN_ID 5] initState).balances ADMIN_ID :=
  c7_balances_nonneg [Op.give ADMIN_ID 5] initState (fun _ => le_refl 0)
    (by
      intro op hop
      simp only [List.mem_singleton] at hop
      subst hop
      show (0:ℤ) ≤ 5
      norm_num) ADMIN_ID

/-- C9: the failing input for the reconciler's error handling.  Account
7 has balance 1500 and two unreversed deposits of 500 and 600 and
requests 1100; the first deposit's partial reversal succeeds (500
reversed externally), the second deposit's partial reversal fails and
its fallback full reversal also fails.  The unprotected fallback call
raises out of the handler: the withdrawal aborts — the deposit table
already records the 500 as reversed, yet the balance is not debited at
all and no pending withdrawal is filed. -/
theorem c9_fallback_failure_aborts :
    (withdraw_cmd
        ⟨fun u => if u = 7 then 1500 else 0, [],
          [⟨7, "c1", 500, 0⟩, ⟨7, "c2", 600, 0⟩], [], fun _ => none⟩
        7 1100 (fun k => if k = 0 then (true, true) else (false, false))).deposits
      = [⟨7, "c1", 500, 500⟩, ⟨7, "c2", 600, 0⟩] ∧
    (withdraw_cmd
        ⟨fun u => if u = 7 then 1500 else 0, [],
          [⟨7, "c1", 500, 0⟩, ⟨7, "c2", 600, 0⟩], [], fun _ => none⟩
        7 1100 (fun k => if k = 0 then (true, true) else (false, false))).balances 7
      = 1500 ∧
    (withdraw_cmd
        ⟨fun u => if u = 7 then 1500 else 0, [],
          [⟨7, "c1", 500, 0⟩, ⟨7, "c2", 600, 0⟩], [], fun _ => none⟩
        7 1100 (fun k => if k = 0 then (true, true) else (false, false))).withdrawals
      = [] := by
  refine ⟨?_, ?_, ?_⟩ <;> rfl

/-! ## The nonce is a constant -/

/-- Every operation preserves "all logged nonces are 1"; the only
operation that appends a bet appends it with the hardcoded `nonce = 1`. -/
lemma step_bets_nonce (st : State) (op : Op) (h : ∀ r ∈ st.bets, r.nonce = 1) :
    ∀ r ∈ (step st op).bets, r.nonce = 1 := by
  cases op with
  | choose uid side => exact h
  | bet uid stake sseed cseed =>
      by_cases hacc : betAccepted st uid stake
      · obtain ⟨⟨hlo, hhi⟩, ⟨side, hpend, hside⟩, hbal⟩ := hacc
        intro r hr
        rw [show step st (.bet uid stake sseed cseed)
              = place_bet st uid stake sseed cseed from rfl,
          place_bet_accept st uid stake sseed cseed side hpend hside hlo hhi hbal] at hr
        dsimp only at hr
        rw [List.mem_append] at hr
        rcases hr with hr | hr
        · exact h r hr
        · rw [List.mem_singleton] at hr
          subst hr
          rfl
      · intro r hr
        rw [show step st (.bet uid stake sseed cseed)
              = place_bet st uid stake sseed cseed from rfl,
          place_bet_reject st uid stake sseed cseed hacc] at hr
        exact h r hr
  | deposit uid amount cid =>
      intro r hr
      cases cid <;> exact h r hr
  | withdraw uid amount oracle =>
      intro r hr
      have hb : (withdraw_cmd st uid amount oracle).bets = st.bets := by
        unfold withdraw_cmd add_balance
        dsimp only
        split_ifs <;> rfl
      rw [show (step st (.withdraw uid amount oracle)).bets
            = (withdraw_cmd st uid amount oracle).bets from rfl, hb] at hr
      exact h r hr
  | give uid amount =>
      intro r hr
      have hb : (admin_give st uid amount).bets = st.bets := by
        unfold admin_give add_balance
        split_ifs <;> rfl
      rw [show (step st (.give uid amount)).bets
            = (admin_give st uid amount).bets from rfl, hb] at hr
      exact h r hr

/-- C10: after any sequence of operations from the fresh database,
every Round record carries nonce 1 — the nonce is hardcoded and never
incremented, so rounds are distinguished only by their freshly
generated seeds. -/
theorem c10_nonce_always_one (ops : List Op) :
    ((run ops initState).bets).map RoundRow.nonce
      = List.replicate ((run ops initState).bets).length 1 := by
  have hmem : ∀ r ∈ (run ops initState).bets, r.nonce = 1 := by
    have hgen : ∀ st : State, (∀ r ∈ st.bets, r.nonce = 1) →
        ∀ r ∈ (run ops st).bets, r.nonce = 1 := by
      induction ops with
      | nil => intro st h; exact h
      | cons op rest ih => intro st h; exact ih (step st op) (step_bets_nonce st op h)
    exact hgen initState (fun r hr => absurd hr (List.not_mem_nil r))
  rw [List.eq_replicate_iff]
  exact ⟨by simp, by
    intro b hb
    rw [List.mem_map] at hb
    obtain ⟨r, hr, rfl⟩ := hb
    exact hmem r hr⟩

end StarsBot
